import Mathlib

/-!
Verification development for the Profundo hybrid retrieval engine.

This file gives a shallow embedding, in Lean, of the retrieval core of the
repository (files `src/recall.rs` and `src/db.rs`), and proves the testable
properties stated in the specification against that embedding.

Modelling conventions:
* Rust `f32` values (similarities, BM25 ranks, embedding coordinates) are
  modelled as rationals `ℚ`: the claims under scrutiny concern control flow,
  ordering, thresholds and guard structure, none of which depend on rounding.
  `f32::sqrt` is passed in as an explicit function parameter `sqrtFn`.
* Rust `i64` / `i32` become `Int`, `usize` becomes `Nat` (with `Int` at the
  database boundary where the stored value can be negative).
* The SQLite FTS5 engine itself is opaque: the `Database` model carries an
  arbitrary function `ftsMatch` giving the (rowid, bm25-rank) rows the engine
  would return for an already-sanitized query.  Everything the repository
  itself computes (sanitization, merging, ranking, fusion, truncation) is
  translated definition-by-definition from the source.
* Rust `HashMap` values built by repeated `insert` are modelled as
  association lists with overwrite-on-insert (`assocInsert`); the maps in the
  source are only ever read back pointwise, never iterated, except for the
  BTreeSet of fused keys, which iterates in ascending key order and is
  modelled by sorting and deduplicating.
* Stable `sort_by` on vectors is modelled by `List.insertionSort`, which has
  the same stable-sort semantics.
-/

/-! ## Association-list model of HashMap insert / get / remove -/

/-- Insert-with-overwrite into an association list; models `HashMap::insert`. -/
def assocInsert {κ α : Type} [DecidableEq κ] (k : κ) (v : α) : List (κ × α) → List (κ × α)
  | [] => [(k, v)]
  | p :: rest => if p.1 = k then (k, v) :: rest else p :: assocInsert k v rest

/-- Lookup in an association list; models `HashMap::get`. -/
def assocGet {κ α : Type} [DecidableEq κ] (k : κ) : List (κ × α) → Option α
  | [] => none
  | p :: rest => if p.1 = k then some p.2 else assocGet k rest

/-- Removal from an association list; models `HashMap::remove` (drops every
binding of the key, which for the overwrite-maintained lists used here is at
most one). -/
def assocRemove {κ α : Type} [DecidableEq κ] (k : κ) : List (κ × α) → List (κ × α)
  | [] => []
  | p :: rest => if p.1 = k then assocRemove k rest else p :: assocRemove k rest

/-! ## Data model (`db.rs`: `StoredChunk`; `recall.rs`: `SearchResult`,
`RecallConfig`) -/

/-- Embedded chunk stored in the database (`db.rs` `StoredChunk`). -/
structure StoredChunk where
  rowid : Int
  id : String
  session_id : String
  turn_start : Int
  turn_end : Int
  timestamp : Option String
  text : String
  embedding : List ℚ
deriving DecidableEq

/-- Search result with similarity score (`recall.rs` `SearchResult`). -/
structure SearchResult where
  chunk : StoredChunk
  similarity : ℚ
deriving DecidableEq

/-- Configuration for recall search (`recall.rs` `RecallConfig`). -/
structure RecallConfig where
  top_k : Nat
  threshold : ℚ
  semantic_only : Bool
  show_full : Bool
  context_turns : Option Nat
  expand : Bool
deriving DecidableEq

/-- Field update used to model `config.semantic_only = true`. -/
def setSemanticOnly (c : RecallConfig) (b : Bool) : RecallConfig :=
  ⟨c.top_k, c.threshold, b, c.show_full, c.context_turns, c.expand⟩

/-- Field update used to state that disabling expansion is equivalent to a
failed expansion call. -/
def setExpand (c : RecallConfig) (b : Bool) : RecallConfig :=
  ⟨c.top_k, c.threshold, c.semantic_only, c.show_full, c.context_turns, b⟩

/-! ## FTS5 query sanitization (`db.rs` `sanitize_fts_query`) -/

/-- Splitter for `str::split_whitespace`: maximal runs of non-whitespace
characters, in order, with no empty tokens.  The accumulator carries the
current token reversed. -/
def splitWhitespaceAux : List Char → List Char → List (List Char)
  | [], acc => if acc = [] then [] else [acc.reverse]
  | c :: cs, acc =>
    if c.isWhitespace then
      if acc = [] then splitWhitespaceAux cs []
      else acc.reverse :: splitWhitespaceAux cs []
    else splitWhitespaceAux cs (c :: acc)

/-- Whitespace-delimited tokens of a character list (`str::split_whitespace`). -/
def splitWhitespace (s : List Char) : List (List Char) :=
  splitWhitespaceAux s []

/-- Per-token sanitization step of `sanitize_fts_query`: strip every double
quote from the token; if nothing is left return the empty string, otherwise
wrap the cleaned token in double quotes. -/
def sanitizeToken (t : List Char) : List Char :=
  let clean := t.filter (fun c => c ≠ '"')
  if clean = [] then [] else '"' :: (clean ++ ['"'])

/-- The list of sanitized tokens a query contributes, before joining
(`sanitize_fts_query`: map then filter-out empties). -/
def sanitizeTokens (q : List Char) : List (List Char) :=
  ((splitWhitespace q).map sanitizeToken).filter (fun t => t ≠ [])

/-- Character-level body of `sanitize_fts_query`: sanitized tokens joined by
single spaces. -/
def sanitizeChars (q : List Char) : List Char :=
  List.intercalate [' '] (sanitizeTokens q)

/-- Sanitize a user query for FTS5 MATCH (`db.rs` `sanitize_fts_query`). -/
def sanitize_fts_query (q : String) : String :=
  String.mk (sanitizeChars q.data)

/-! ## Database query surface (`db.rs`) -/

/-- Model of the opened database.  `chunks` is the contents of the `chunks`
table in rowid order; `ftsMatch` is the opaque FTS5 engine: the
(rowid, bm25-rank) rows, ordered by ascending rank and already limited, that
`chunks_fts MATCH ? ORDER BY rank LIMIT ?` would return for a (sanitized)
query string. -/
structure Database where
  chunks : List StoredChunk
  ftsMatch : String → Nat → List (Int × ℚ)

/-- BM25-ranked lexical search (`db.rs` `bm25_search`): sanitize, short-circuit
to the empty list on an empty sanitized query, otherwise ask the FTS5 index. -/
def Database.bm25_search (db : Database) (query : String) (limit : Nat) : List (Int × ℚ) :=
  let safe_query := sanitize_fts_query query
  if safe_query = "" then [] else db.ftsMatch safe_query limit

/-- Load all chunks (`db.rs` `load_all_chunks`). -/
def Database.load_all_chunks (db : Database) : List StoredChunk :=
  db.chunks

/-- Load chunks by rowids (`db.rs` `load_chunks_by_rowids`): empty input
yields empty output without querying; otherwise the rows of the chunks table
whose rowid is in the requested set, in table order. -/
def Database.load_chunks_by_rowids (db : Database) (rowids : List Int) : List StoredChunk :=
  if rowids = [] then [] else db.chunks.filter (fun c => c.rowid ∈ rowids)

/-! ## Cosine similarity (`recall.rs` `cosine_similarity`) -/

/-- Dot product as computed by `a.iter().zip(b.iter()).map(|(x, y)| x * y).sum()`. -/
def dotProduct (a b : List ℚ) : ℚ :=
  ((a.zip b).map (fun p => p.1 * p.2)).sum

/-- Sum of squares, the argument of each `.sqrt()` call in `cosine_similarity`. -/
def sumSquares (v : List ℚ) : ℚ :=
  (v.map (fun x => x * x)).sum

/-- Cosine similarity (`recall.rs` `cosine_similarity`), with `f32::sqrt`
abstracted as `sqrtFn`.  Mirrors the two guards of the source: mismatched
lengths or an empty first vector return 0 before any arithmetic, and a zero
computed norm returns 0 before the division. -/
def cosine_similarity (sqrtFn : ℚ → ℚ) (a b : List ℚ) : ℚ :=
  if a.length ≠ b.length ∨ a = [] then 0
  else if sqrtFn (sumSquares a) = 0 ∨ sqrtFn (sumSquares b) = 0 then 0
  else dotProduct a b / (sqrtFn (sumSquares a) * sqrtFn (sumSquares b))

/-! ## Stable sorts used by the retriever

Rust's `sort_by` is a stable sort; `List.insertionSort` has the same
stable-sort semantics for the total preorders used here. -/

/-- Ascending order on (rowid, bm25-rank) pairs by rank: the comparator of
`lexical.sort_by(|a, b| a.1.partial_cmp(&b.1).unwrap())`. -/
abbrev rankLe (a b : Int × ℚ) : Prop := a.2 ≤ b.2

instance : DecidableRel rankLe := fun a b => inferInstanceAs (Decidable (a.2 ≤ b.2))

instance : IsTotal (Int × ℚ) rankLe := ⟨fun a b => le_total a.2 b.2⟩

instance : IsTrans (Int × ℚ) rankLe := ⟨fun _ _ _ h h' => le_trans h h'⟩

/-- Descending order on (rowid, similarity) pairs by similarity: the
comparator of `semantic.sort_by(|a, b| b.1.partial_cmp(&a.1).unwrap())`. -/
abbrev simGe (a b : Int × ℚ) : Prop := b.2 ≤ a.2

instance : DecidableRel simGe := fun a b => inferInstanceAs (Decidable (b.2 ≤ a.2))

instance : IsTotal (Int × ℚ) simGe := ⟨fun a b => le_total b.2 a.2⟩

instance : IsTrans (Int × ℚ) simGe := ⟨fun _ _ _ h h' => le_trans h' h⟩

/-- Descending order on (fused-score, rowid) pairs by score: the comparator of
`fused.sort_by(|a, b| b.0.partial_cmp(&a.0).unwrap())`. -/
abbrev scoreGe (a b : ℚ × Int) : Prop := b.1 ≤ a.1

instance : DecidableRel scoreGe := fun a b => inferInstanceAs (Decidable (b.1 ≤ a.1))

instance : IsTotal (ℚ × Int) scoreGe := ⟨fun a b => le_total b.1 a.1⟩

instance : IsTrans (ℚ × Int) scoreGe := ⟨fun _ _ _ h h' => le_trans h' h⟩

/-- Descending order on search results by similarity: the comparator of
`results.sort_by(|a, b| b.similarity.partial_cmp(&a.similarity).unwrap())`. -/
abbrev resultSimGe (a b : SearchResult) : Prop := b.similarity ≤ a.similarity

instance : DecidableRel resultSimGe :=
  fun a b => inferInstanceAs (Decidable (b.similarity ≤ a.similarity))

instance : IsTotal SearchResult resultSimGe := ⟨fun a b => le_total b.similarity a.similarity⟩

instance : IsTrans SearchResult resultSimGe := ⟨fun _ _ _ h h' => le_trans h' h⟩

/-! ## Pure-semantic search (`recall.rs` `semantic_only_search`) -/

/-- Legacy pure-semantic path (`recall.rs` `semantic_only_search`): score every
chunk, keep those at or above the threshold, sort by descending similarity,
truncate to `top_k`. -/
def semantic_only_search (sqrtFn : ℚ → ℚ) (chunks : List StoredChunk)
    (query_embedding : List ℚ) (config : RecallConfig) : List SearchResult :=
  let results :=
    (chunks.map (fun chunk =>
        SearchResult.mk chunk (cosine_similarity sqrtFn query_embedding chunk.embedding))).filter
      (fun r => config.threshold ≤ r.similarity)
  (List.insertionSort resultSimGe results).take config.top_k

/-! ## Hybrid search (`recall.rs` `hybrid_search_expanded`) -/

/-- Candidate pool size per query variant: `(top_k * 40).max(200)`. -/
def candidatePoolSize (top_k : Nat) : Nat := max (top_k * 40) 200

/-- One step of merging a BM25 row into the `all_bm25` map: keep the best
(lowest) rank for each rowid (`entry().and_modify(..).or_insert(..)`). -/
def upsertMinRank (acc : List (Int × ℚ)) (p : Int × ℚ) : List (Int × ℚ) :=
  match acc with
  | [] => [p]
  | q :: rest =>
    if q.1 = p.1 then (q.1, if p.2 < q.2 then p.2 else q.2) :: rest
    else q :: upsertMinRank rest p

/-- Merged BM25 results across all query variants (`all_bm25` in
`hybrid_search_expanded`), as an association list in first-seen rowid order. -/
def mergedBm25 (db : Database) (queries : List String) (pool : Nat) : List (Int × ℚ) :=
  queries.foldl (fun acc q => (db.bm25_search q pool).foldl upsertMinRank acc) []

/-- The lexical ranking: merged BM25 rows sorted by ascending rank
(`lexical` in `hybrid_search_expanded`). -/
def lexicalRanking (db : Database) (queries : List String) (top_k : Nat) : List (Int × ℚ) :=
  List.insertionSort rankLe (mergedBm25 db queries (candidatePoolSize top_k))

/-- Candidate chunks for semantic scoring: the chunks behind the lexical pool,
or the whole corpus when the pool is empty (`candidates` in
`hybrid_search_expanded`). -/
def hybridCandidates (db : Database) (lexical : List (Int × ℚ)) : List StoredChunk :=
  let bm25_rowids := lexical.map Prod.fst
  if bm25_rowids = [] then db.load_all_chunks
  else db.load_chunks_by_rowids bm25_rowids

/-- The semantic ranking over the candidates: cosine scores against the
original query embedding, thresholded, sorted by descending similarity
(`semantic` in `hybrid_search_expanded`). -/
def semanticRanking (sqrtFn : ℚ → ℚ) (query_embedding : List ℚ)
    (candidates : List StoredChunk) (threshold : ℚ) : List (Int × ℚ) :=
  List.insertionSort simGe
    ((candidates.map (fun c =>
        (c.rowid, cosine_similarity sqrtFn query_embedding c.embedding))).filter
      (fun p => threshold ≤ p.2))

/-- Rank map of a ranking list: the loop
`for (i, (rowid, _)) in list.iter().enumerate() { map.insert(rowid, i + 1) }`. -/
def ranksOfAux : Nat → List (Int × ℚ) → List (Int × Nat) → List (Int × Nat)
  | _, [], m => m
  | i, p :: rest, m => ranksOfAux (i + 1) rest (assocInsert p.1 (i + 1) m)

/-- One-based rank map of a ranking (`sem_rank` / `lex_rank`). -/
def ranksOf (l : List (Int × ℚ)) : List (Int × Nat) :=
  ranksOfAux 0 l []

/-- Similarity map of the semantic ranking (`sem_sim`). -/
def simsOf (l : List (Int × ℚ)) : List (Int × ℚ) :=
  l.foldl (fun m p => assocInsert p.1 p.2 m) []

/-- Rowid-to-chunk map over the candidates (`by_rowid`); later inserts
overwrite earlier ones, as with `HashMap::insert`. -/
def byRowidMap (candidates : List StoredChunk) : List (Int × StoredChunk) :=
  candidates.foldl (fun m c => assocInsert c.rowid c m) []

/-- RRF constant `RRF_K`. -/
def RRF_K : ℚ := 60

/-- Fallback rank `FALLBACK_RANK` for a key absent from one ranking. -/
def FALLBACK_RANK : ℚ := 10000

/-- Claim-side definition (from the claim wording, for comparison with the
code's rank maps): the 1-based position of a key within a ranking list, or
10000 when the key does not appear in it. -/
def rankFrom (n : Nat) (r : Int) : List (Int × ℚ) → ℚ
  | [] => 10000
  | p :: rest => if p.1 = r then (n : ℚ) else rankFrom (n + 1) r rest

/-- Claim-side definition: 1-based rank of a key in a ranking, else 10000. -/
def specRankOrFallback (l : List (Int × ℚ)) (r : Int) : ℚ :=
  rankFrom 1 r l

/-- The fused keys: every rowid in either rank map, iterated in ascending
order (the `BTreeSet` in `hybrid_search_expanded`). -/
def fusedKeys (semR lexR : List (Int × Nat)) : List Int :=
  (List.insertionSort (fun a b : Int => a ≤ b)
    ((semR.map Prod.fst) ++ (lexR.map Prod.fst))).dedup

/-- The rank a fused key contributes from one rank map: its stored rank, or
`FALLBACK_RANK` when absent (`map.get(..).map(|r| r as f32).unwrap_or(FALLBACK_RANK)`). -/
def rankOrFallbackOfMap (m : List (Int × Nat)) (rowid : Int) : ℚ :=
  match assocGet rowid m with
  | some n => (n : ℚ)
  | none => FALLBACK_RANK

/-- Reciprocal-rank-fusion score of one rowid. -/
def fusedScore (semR lexR : List (Int × Nat)) (rowid : Int) : ℚ :=
  1 / (RRF_K + rankOrFallbackOfMap semR rowid) + 1 / (RRF_K + rankOrFallbackOfMap lexR rowid)

/-- The fused list, sorted by descending score (`fused` after its sort). -/
def fusedList (semR lexR : List (Int × Nat)) : List (ℚ × Int) :=
  List.insertionSort scoreGe ((fusedKeys semR lexR).map (fun r => (fusedScore semR lexR r, r)))

/-- The output loop of `hybrid_search_expanded`: walk the (already truncated)
fused list, pop each rowid's chunk out of `by_rowid`, and report the chunk's
semantic similarity, defaulting to 0.0 when the rowid never entered the
semantic ranking. -/
def takeResults : List (ℚ × Int) → List (Int × StoredChunk) → List (Int × ℚ) → List SearchResult
  | [], _, _ => []
  | p :: rest, byR, semS =>
    match assocGet p.2 byR with
    | some chunk =>
      SearchResult.mk chunk ((assocGet p.2 semS).getD 0) ::
        takeResults rest (assocRemove p.2 byR) semS
    | none => takeResults rest byR semS

/-- BM25-first hybrid search with multiple query variants
(`recall.rs` `hybrid_search_expanded`). -/
def hybrid_search_expanded (sqrtFn : ℚ → ℚ) (db : Database) (query_embedding : List ℚ)
    (queries : List String) (config : RecallConfig) : List SearchResult :=
  if hybridCandidates db (lexicalRanking db queries config.top_k) = [] then []
  else
    takeResults
      ((fusedList
          (ranksOf (semanticRanking sqrtFn query_embedding
            (hybridCandidates db (lexicalRanking db queries config.top_k)) config.threshold))
          (ranksOf (lexicalRanking db queries config.top_k))).take config.top_k)
      (byRowidMap (hybridCandidates db (lexicalRanking db queries config.top_k)))
      (simsOf (semanticRanking sqrtFn query_embedding
        (hybridCandidates db (lexicalRanking db queries config.top_k)) config.threshold))

/-! ## Query expansion and the top-level search (`recall.rs` `expand_query`,
`search`) -/

/-- Parsing of the expansion model's reply: lines, trimmed, non-empty, at most
two kept. -/
def expandParse (response : String) : List String :=
  (((response.split (fun c => c = '\n')).map String.trim).filter
    (fun l => l ≠ "")).take 2

/-- Expand a query using the LLM (`recall.rs` `expand_query`).  The argument
is the outcome of the `client.chat` call; on a chat failure the function
logs and returns no variants — it never propagates the error (both match arms
of the source return `Ok`). -/
def expand_query (chatResult : Except String String) : List String :=
  match chatResult with
  | Except.ok response => expandParse response
  | Except.error _ => []

/-- The set of query strings run lexically (`queries` in `search`): the
original query plus, when expansion is on, the expansion variants. -/
def searchQueries (query : String) (expand : Bool) (chatResult : Except String String) :
    List String :=
  if expand then query :: expand_query chatResult else [query]

/-- The configuration after the `PROFUNDO_SEMANTIC_ONLY` environment check at
the top of `search`. -/
def searchEffectiveConfig (config : RecallConfig) (envSemanticOnly : Option String) :
    RecallConfig :=
  if envSemanticOnly = some "1" then setSemanticOnly config true else config

/-- Top-level search (`recall.rs` `search`).  The environment variable, the
chat outcome used for expansion, and the query embedding returned by the
embedding service are passed in explicitly; `f32::sqrt` is `sqrtFn`. -/
def search (envSemanticOnly : Option String) (sqrtFn : ℚ → ℚ) (db : Database)
    (query_embedding : List ℚ) (chatResult : Except String String) (query : String)
    (config : RecallConfig) : List SearchResult :=
  let config := searchEffectiveConfig config envSemanticOnly
  let queries := searchQueries query config.expand chatResult
  if config.semantic_only then
    let chunks := db.load_all_chunks
    if chunks = [] then [] else semantic_only_search sqrtFn chunks query_embedding config
  else hybrid_search_expanded sqrtFn db query_embedding queries config

/-! ## Context expansion (`recall.rs` `display_with_context`) -/

/-- One conversation turn as consumed by the context expander: the external
turn-sequence loader's `Turn` record of one user text and one assistant
text. -/
structure Turn where
  user_text : String
  assistant_text : String
deriving DecidableEq

/-- Observable outcome of `display_with_context`.  `warnFallback` is the
stored chunk text printed under a visible warning; `silentFallback` is the
stored chunk text printed by the empty-slice branch (which prints no
warning); `window` is the rendered slice: its bounds in the turn sequence
and, per displayed turn, the turn together with its matched-vs-context
marker. -/
inductive ContextDisplay where
  | warnFallback (text : String)
  | silentFallback (text : String)
  | window (first last : Nat) (turns : List (Turn × Bool))
deriving DecidableEq

/-- Context expander (`recall.rs` `display_with_context`).  `turnsLoaded` is
the outcome of locating and parsing the session file (`None` when the file is
missing or fails to parse).  Returns `none` exactly when the source would
panic: the slice expression `&turns[start..end]` panics when `start > end`.
All other paths mirror the source's guards in order: negative turn indices,
then missing session, then empty-or-out-of-range turn sequence, then the
empty-slice fallback, then the rendered window. -/
def display_with_context (turnsLoaded : Option (List Turn)) (turn_start turn_end : Int)
    (context : Nat) (chunk_text : String) : Option ContextDisplay :=
  if turn_start < 0 ∨ turn_end < 0 then some (ContextDisplay.warnFallback chunk_text)
  else
    let ts := turn_start.toNat
    let te := turn_end.toNat
    match turnsLoaded with
    | none => some (ContextDisplay.warnFallback chunk_text)
    | some turns =>
      if turns = [] ∨ turns.length ≤ ts then some (ContextDisplay.warnFallback chunk_text)
      else
        let start := ts - context
        let stop := min (te + context) turns.length
        if stop < start then none
        else
          let slice := (turns.drop start).take (stop - start)
          if slice = [] then some (ContextDisplay.silentFallback chunk_text)
          else
            some (ContextDisplay.window start stop
              (slice.enum.map (fun p =>
                (p.2, decide (ts ≤ start + p.1 ∧ start + p.1 < te)))))

/-! ## Chunk storage (`db.rs` `store_chunks`), with the SQLite transaction
modelled explicitly -/

/-- A chunk of text extracted from a session (`session.rs` `TextChunk`). -/
structure TextChunk where
  session_id : String
  turn_start : Nat
  turn_end : Nat
  timestamp : Option String
  text : String
deriving DecidableEq

/-- One row of the `chunks` table as written by `store_chunks` (the embedding
is kept as the vector it encodes; serialization is modelled separately by
`embeddingOfBytes`). -/
structure ChunkRow where
  id : String
  session_id : String
  turn_start : Int
  turn_end : Int
  timestamp : Option String
  text : String
  embedding : List ℚ
deriving DecidableEq

/-- One row of the `sessions_processed` table. -/
structure ProcessedRow where
  file_path : String
  file_size : Int
  file_mtime : Int
  chunks_count : Int
deriving DecidableEq

/-- Observable state of the store: the `chunks` table (in insertion order)
and the `sessions_processed` table keyed by session id. -/
structure StoreState where
  chunks : List ChunkRow
  processed : List (String × ProcessedRow)
deriving DecidableEq

/-- The SQL statements `store_chunks` executes inside its transaction. -/
inductive DbOp where
  | deleteSession (session_id : String)
  | insertChunk (row : ChunkRow)
  | upsertProcessed (session_id : String) (row : ProcessedRow)

/-- Effect of one statement on the (pending) store state. -/
def applyOp (s : StoreState) : DbOp → StoreState
  | DbOp.deleteSession sid => ⟨s.chunks.filter (fun c => c.session_id ≠ sid), s.processed⟩
  | DbOp.insertChunk row => ⟨s.chunks ++ [row], s.processed⟩
  | DbOp.upsertProcessed sid row => ⟨s.chunks, assocInsert sid row s.processed⟩

/-- The row inserted for the i-th chunk of the batch; `ids i` stands for the
freshly generated UUID. -/
def rowOfChunk (ids : Nat → String) (i : Nat) (c : TextChunk × List ℚ) : ChunkRow :=
  ⟨ids i, c.1.session_id, Int.ofNat c.1.turn_start, Int.ofNat c.1.turn_end,
    c.1.timestamp, c.1.text, c.2⟩

/-- The statement sequence of `store_chunks`: delete the session's chunks,
insert each new chunk, then upsert the processed marker. -/
def storeOps (session_id file_path : String) (file_size file_mtime : Int)
    (ids : Nat → String) (chunks : List (TextChunk × List ℚ)) : List DbOp :=
  DbOp.deleteSession session_id ::
    ((List.range chunks.length).zip chunks).map (fun p => DbOp.insertChunk (rowOfChunk ids p.1 p.2)) ++
    [DbOp.upsertProcessed session_id
      ⟨file_path, file_size, file_mtime, Int.ofNat chunks.length⟩]

/-- Run a statement list against a pending state inside a transaction.
`failAt = some i` injects a failure at the i-th statement (any statement of a
batch can fail in SQLite); a failure aborts the run. -/
def runOps (pending : StoreState) (ops : List DbOp) (failAt : Option Nat) :
    Except Unit StoreState :=
  match ops, failAt with
  | [], _ => Except.ok pending
  | _ :: _, some 0 => Except.error ()
  | op :: rest, some (n + 1) => runOps (applyOp pending op) rest (some n)
  | op :: rest, none => runOps (applyOp pending op) rest none

/-- Store chunks for a session (`db.rs` `store_chunks`).  The statements run
inside one transaction: on success the pending state is committed, on any
injected failure the transaction rolls back and the observable state is the
original one.  Returns the observable state and whether the call succeeded. -/
def store_chunks (s : StoreState) (session_id file_path : String)
    (file_size file_mtime : Int) (ids : Nat → String)
    (chunks : List (TextChunk × List ℚ)) (failAt : Option Nat) : StoreState × Bool :=
  match runOps s (storeOps session_id file_path file_size file_mtime ids chunks) failAt with
  | Except.ok pending => (pending, true)
  | Except.error _ => (s, false)

/-! ## Vector blob decoding (`db.rs` `bytes_to_embedding`) -/

/-- Bit pattern of `f32::from_le_bytes([b0, b1, b2, b3])`: the four bytes in
little-endian order.  The numeric interpretation of the pattern is
irrelevant to the claims, which are about lengths and truncation. -/
def word32 (b0 b1 b2 b3 : Nat) : Nat :=
  b0 + 256 * b1 + 65536 * b2 + 16777216 * b3

/-- Decode a stored vector blob (`db.rs` `bytes_to_embedding`):
`chunks_exact(4)` walks complete 4-byte groups and drops any shorter
remainder, so a blob of any length decodes without panicking. -/
def bytes_to_embedding : List Nat → List Nat
  | [] => []
  | [_] => []
  | [_, _] => []
  | [_, _, _] => []
  | b0 :: b1 :: b2 :: b3 :: rest => word32 b0 b1 b2 b3 :: bytes_to_embedding rest

/-! ## Concrete fixtures used by witnesses and counterexamples -/

/-- A one-chunk corpus entry whose embedding matches the test query exactly. -/
def chunkA : StoredChunk := ⟨1, ("a"), ("s"), 0, 1, none, ("hello"), [1]⟩

/-- A one-chunk database whose FTS index always reports the chunk. -/
def db0 : Database := ⟨[chunkA], fun _ _ => [(1, -5)]⟩

/-- A configuration with a threshold no candidate passes and the
semantic-only flag off. -/
def cfg0 : RecallConfig := ⟨5, 2, false, false, none, false⟩

/-- An empty database. -/
def dbE : Database := ⟨[], fun _ _ => []⟩

/-- A string the FTS5 MATCH grammar accepts as one phrase: an opening double
quote, a nonempty quote-free body, a closing double quote.  A sequence of
such phrases separated by spaces cannot be read as boolean operators,
grouping, or unbalanced quoting. -/
def goodPhrase (t : List Char) : Prop :=
  ∃ body, body ≠ [] ∧ '"' ∉ body ∧ t = '"' :: (body ++ ['"'])

/-- The rows `store_chunks` inserts for a batch, in order. -/
def insertedRows (ids : Nat → String) (chunks : List (TextChunk × List ℚ)) : List ChunkRow :=
  ((List.range chunks.length).zip chunks).map (fun p => rowOfChunk ids p.1 p.2)

/-- Fixtures for the C3 witness: a store with one stale row for the session
and one row of another session. -/
def st0 : StoreState :=
  ⟨[⟨("old"), ("s"), 0, 1, none, ("x"), [1]⟩, ⟨("keep"), ("other"), 0, 1, none, ("y"), [2]⟩], []⟩

/-- Deterministic id supply standing in for UUID generation. -/
def ids0 : Nat → String := fun _ => ("id")

/-- A one-chunk replacement batch for session `s`. -/
def chunks0 : List (TextChunk × List ℚ) := [(⟨("s"), 0, 1, none, ("hi")⟩, [1])]

/-- Lexical ranking fixture for the C2 witness. -/
def lex1 : List (Int × ℚ) := lexicalRanking db0 [("hi")] cfg0.top_k

/-- Semantic ranking fixture for the C2 witness. -/
def sem1 : List (Int × ℚ) :=
  semanticRanking id [1] (hybridCandidates db0 lex1) cfg0.threshold

/-! ## Helper lemmas about the association-list maps -/

theorem assocGet_assocInsert {κ α : Type} [DecidableEq κ] (k k' : κ) (v : α)
    (m : List (κ × α)) :
    assocGet k (assocInsert k' v m) = if k' = k then some v else assocGet k m := by
  induction m with
  | nil => by_cases h : k' = k <;> simp [assocInsert, assocGet, h]
  | cons p rest ih =>
    by_cases hp : p.1 = k'
    · by_cases h : k' = k <;> simp [assocInsert, assocGet, hp, h, hp.symm ▸ h]
    · simp only [assocInsert, hp, if_false]
      by_cases h : p.1 = k
      · have : ¬ k' = k := fun hk => hp (hk ▸ h)
        simp [assocGet, h, this]
      · simp [assocGet, h, ih]

theorem assocGet_mem {κ α : Type} [DecidableEq κ] {k : κ} {v : α} {m : List (κ × α)}
    (h : assocGet k m = some v) : (k, v) ∈ m := by
  induction m with
  | nil => simp [assocGet] at h
  | cons p rest ih =>
    by_cases hp : p.1 = k
    · simp only [assocGet, hp, if_true, Option.some.injEq] at h
      have hpv : p = (k, v) := by
        cases p
        simp only [Prod.mk.injEq]
        exact ⟨hp, h⟩
      rw [← hpv]
      exact List.mem_cons_self _ _
    · simp only [assocGet, hp, if_false] at h
      exact List.mem_cons_of_mem _ (ih h)

theorem assocGet_foldl_insert {κ α β : Type} [DecidableEq κ] (f : β → κ × α)
    (l : List β) (m : List (κ × α)) (k : κ) (v : α)
    (h : assocGet k (l.foldl (fun acc b => assocInsert (f b).1 (f b).2 acc) m) = some v) :
    (∃ b ∈ l, f b = (k, v)) ∨ assocGet k m = some v := by
  induction l generalizing m with
  | nil => exact Or.inr h
  | cons b rest ih =>
    rcases ih _ h with hmem | hget
    · rcases hmem with ⟨b', hb', hfb⟩
      exact Or.inl ⟨b', List.mem_cons_of_mem _ hb', hfb⟩
    · rw [assocGet_assocInsert] at hget
      by_cases hk : (f b).1 = k
      · rw [if_pos hk] at hget
        refine Or.inl ⟨b, List.mem_cons_self _ _, ?_⟩
        have hv : (f b).2 = v := by
          injection hget
        calc f b = ((f b).1, (f b).2) := rfl
          _ = (k, v) := by rw [hk, hv]
      · rw [if_neg hk] at hget
        exact Or.inr hget

/-! ## Claim C9: vector-blob decoding truncates, never panics -/

theorem take_add_four {α : Type} (n : Nat) (a b c d : α) (l : List α) :
    List.take (n + 4) (a :: b :: c :: d :: l) = a :: b :: c :: d :: List.take n l := by
  rw [show n + 4 = (((n + 1) + 1) + 1) + 1 from by omega]
  simp [List.take_succ_cons]

theorem bytes_to_embedding_length : ∀ bytes : List Nat,
    (bytes_to_embedding bytes).length = bytes.length / 4
  | b0 :: b1 :: b2 :: b3 :: rest => by
    have ih := bytes_to_embedding_length rest
    show (word32 b0 b1 b2 b3 :: bytes_to_embedding rest).length =
      (b0 :: b1 :: b2 :: b3 :: rest).length / 4
    simp only [List.length_cons, ih]
    omega
  | [] => rfl
  | [b0] => by simp [bytes_to_embedding]
  | [b0, b1] => by simp [bytes_to_embedding]
  | [b0, b1, b2] => by simp [bytes_to_embedding]

theorem bytes_to_embedding_take : ∀ bytes : List Nat,
    bytes_to_embedding bytes = bytes_to_embedding (bytes.take (4 * (bytes.length / 4)))
  | b0 :: b1 :: b2 :: b3 :: rest => by
    have ih := bytes_to_embedding_take rest
    have hlen : (4 : Nat) * ((b0 :: b1 :: b2 :: b3 :: rest).length / 4) =
        4 * (rest.length / 4) + 4 := by
      simp only [List.length_cons]
      omega
    rw [hlen, take_add_four]
    show word32 b0 b1 b2 b3 :: bytes_to_embedding rest =
      word32 b0 b1 b2 b3 :: bytes_to_embedding (rest.take (4 * (rest.length / 4)))
    rw [← ih]
  | [] => rfl
  | [b0] => by simp [bytes_to_embedding]
  | [b0, b1] => by simp [bytes_to_embedding]
  | [b0, b1, b2] => by simp [bytes_to_embedding]

/-- Claim C9: for every stored vector blob, decoding is total (the model is a
total function, mirroring `chunks_exact`, which never panics) and produces
exactly `len / 4` elements, equal to what the largest complete 4-byte-aligned
prefix of the blob decodes to — a blob whose length is not a multiple of the
element width is truncated, not rejected. -/
theorem bytes_to_embedding_truncates (bytes : List Nat) :
    (bytes_to_embedding bytes).length = bytes.length / 4 ∧
    bytes_to_embedding bytes = bytes_to_embedding (bytes.take (4 * (bytes.length / 4))) :=
  ⟨bytes_to_embedding_length bytes, bytes_to_embedding_take bytes⟩

/-- Witness for C9 at a concrete 7-byte (misaligned) blob. -/
theorem bytes_to_embedding_truncates_witness :
    (bytes_to_embedding [1, 0, 0, 0, 9, 9, 9]).length = 7 / 4 ∧
    bytes_to_embedding [1, 0, 0, 0, 9, 9, 9] =
      bytes_to_embedding ([1, 0, 0, 0, 9, 9, 9].take (4 * (7 / 4))) :=
  bytes_to_embedding_truncates [1, 0, 0, 0, 9, 9, 9]

/-! ## Claim C10: cosine similarity is total, the division never divides
by zero -/

/-- Claim C10: `cosine_similarity` is a total function returning exactly 0
whenever the vectors' lengths differ, either vector is empty, or either
computed norm is zero; in every remaining case it returns the dot product
divided by the product of the norms, and that product is nonzero, so the
division is never a division by zero. -/
theorem cosine_similarity_total (sqrtFn : ℚ → ℚ) (a b : List ℚ) :
    ((a.length ≠ b.length ∨ a = [] ∨ b = [] ∨
        sqrtFn (sumSquares a) = 0 ∨ sqrtFn (sumSquares b) = 0) →
      cosine_similarity sqrtFn a b = 0) ∧
    (a.length = b.length → a ≠ [] →
      sqrtFn (sumSquares a) ≠ 0 → sqrtFn (sumSquares b) ≠ 0 →
      sqrtFn (sumSquares a) * sqrtFn (sumSquares b) ≠ 0 ∧
      cosine_similarity sqrtFn a b =
        dotProduct a b / (sqrtFn (sumSquares a) * sqrtFn (sumSquares b))) := by
  constructor
  · intro h
    unfold cosine_similarity
    by_cases hguard : a.length ≠ b.length ∨ a = []
    · rw [if_pos hguard]
    · rw [if_neg hguard]
      push_neg at hguard
      rcases h with h | h | h | h | h
      · exact absurd hguard.1 h
      · exact absurd h hguard.2
      · exfalso
        apply hguard.2
        apply List.length_eq_zero.mp
        rw [hguard.1, h]
        rfl
      · rw [if_pos (Or.inl h)]
      · rw [if_pos (Or.inr h)]
  · intro hlen hne hna hnb
    refine ⟨mul_ne_zero hna hnb, ?_⟩
    unfold cosine_similarity
    rw [if_neg ?_, if_neg ?_]
    · rintro (h | h)
      · exact hna h
      · exact hnb h
    · rintro (h | h)
      · exact absurd hlen h
      · exact hne h

/-- Witness for C10: a concrete zero case and a concrete division case. -/
theorem cosine_similarity_total_witness :
    cosine_similarity id [1] [1, 2] = 0 ∧
    (id (sumSquares [2]) * id (sumSquares [3]) ≠ 0 ∧
      cosine_similarity id [2] [3] =
        dotProduct [2] [3] / (id (sumSquares [2]) * id (sumSquares [3]))) :=
  ⟨(cosine_similarity_total id [1] [1, 2]).1 (Or.inl (by decide)),
    (cosine_similarity_total id [2] [3]).2 rfl (by decide)
      (by with_unfolding_all decide) (by with_unfolding_all decide)⟩

/-! ## Claim C7: semantic-only mode and hidden process-wide state -/

/-- Claim C7 counterexample: with the same query, configuration (flag off) and
store contents, flipping only the `PROFUNDO_SEMANTIC_ONLY` process environment
variable changes the mode and the results: the claim that the mode is engaged
only by the explicit configuration flag, never through process-wide state, is
false of the code. -/
theorem semantic_only_env_counterexample :
    search (some ("1")) id db0 [1] (Except.error ("e")) ("hi") cfg0 ≠
      search none id db0 [1] (Except.error ("e")) ("hi") cfg0 := by
  with_unfolding_all decide

/-- Claim C7 (amended): pure-semantic mode is engaged exactly when the
explicit `semantic_only` flag is set or the `PROFUNDO_SEMANTIC_ONLY`
environment variable is `1` at the start of the search; when that variable is
not `1`, the configuration is used unchanged, so for a fixed environment the
mode is determined by the explicit flag alone. -/
theorem semantic_only_mode_amended (config : RecallConfig) (env : Option String) :
    ((searchEffectiveConfig config env).semantic_only = true ↔
      (config.semantic_only = true ∨ env = some ("1"))) ∧
    (env ≠ some ("1") → searchEffectiveConfig config env = config) := by
  unfold searchEffectiveConfig
  by_cases h : env = some ("1") <;> simp [h, setSemanticOnly]

/-- Witness for the amended C7 at a concrete configuration and environment. -/
theorem semantic_only_mode_amended_witness :
    searchEffectiveConfig cfg0 none = cfg0 :=
  (semantic_only_mode_amended cfg0 none).2 (by decide)

/-! ## Claim C4: empty lexical pool falls back to a full corpus scan -/

/-- Claim C4: in hybrid mode, when the merged lexical pool is empty the
candidate set handed to semantic scoring is the entire corpus
(`load_all_chunks`), and when the corpus itself is empty the hybrid search
returns the empty result list. -/
theorem hybrid_empty_pool_fallback (sqrtFn : ℚ → ℚ) (db : Database) (qe : List ℚ)
    (queries : List String) (config : RecallConfig) :
    (lexicalRanking db queries config.top_k = [] →
      hybridCandidates db (lexicalRanking db queries config.top_k) = db.load_all_chunks) ∧
    (db.chunks = [] → hybrid_search_expanded sqrtFn db qe queries config = []) := by
  constructor
  · intro h
    rw [h]
    unfold hybridCandidates
    simp
  · intro h
    have hc : hybridCandidates db (lexicalRanking db queries config.top_k) = [] := by
      unfold hybridCandidates Database.load_all_chunks Database.load_chunks_by_rowids
      by_cases hr : (lexicalRanking db queries config.top_k).map Prod.fst = [] <;>
        simp [hr, h]
    simp [hybrid_search_expanded, hc]

/-- Witness for C4: the empty corpus yields the empty result list. -/
theorem hybrid_empty_pool_fallback_witness :
    hybrid_search_expanded id dbE [1] [("q")] cfg0 = [] :=
  (hybrid_empty_pool_fallback id dbE [1] [("q")] cfg0).2 rfl

/-! ## Claim C8: query expansion is bounded and its failure is soft -/

theorem semantic_only_search_config_congr (sqrtFn : ℚ → ℚ) (chunks : List StoredChunk)
    (qe : List ℚ) (c₁ c₂ : RecallConfig) (hk : c₁.top_k = c₂.top_k)
    (ht : c₁.threshold = c₂.threshold) :
    semantic_only_search sqrtFn chunks qe c₁ = semantic_only_search sqrtFn chunks qe c₂ := by
  simp only [semantic_only_search, hk, ht]

theorem hybrid_search_config_congr (sqrtFn : ℚ → ℚ) (db : Database) (qe : List ℚ)
    (queries : List String) (c₁ c₂ : RecallConfig) (hk : c₁.top_k = c₂.top_k)
    (ht : c₁.threshold = c₂.threshold) :
    hybrid_search_expanded sqrtFn db qe queries c₁ =
      hybrid_search_expanded sqrtFn db qe queries c₂ := by
  simp only [hybrid_search_expanded, hk, ht]

/-- Claim C8: at most 2 expansion variants are ever added; when the expansion
call fails the lexical query set collapses to the original query alone, and
the whole search behaves exactly as if expansion had been disabled — the
failure is soft, never fatal. -/
theorem expansion_soft_failure (chatResult : Except String String) (query : String)
    (e : String) (env : Option String) (sqrtFn : ℚ → ℚ) (db : Database)
    (qe : List ℚ) (config : RecallConfig) :
    (expand_query chatResult).length ≤ 2 ∧
    searchQueries query true (Except.error e) = [query] ∧
    search env sqrtFn db qe (Except.error e) query config =
      search env sqrtFn db qe (Except.error e) query (setExpand config false) := by
  refine ⟨?_, ?_, ?_⟩
  · cases chatResult with
    | ok r =>
      simp only [expand_query, expandParse]
      exact List.length_take_le _ _
    | error _ =>
      simp [expand_query]
  · simp [searchQueries, expand_query]
  · have hq : ∀ b : Bool, searchQueries query b (Except.error e) = [query] := by
      intro b
      cases b <;> simp [searchQueries, expand_query]
    have heff : searchEffectiveConfig (setExpand config false) env =
        setExpand (searchEffectiveConfig config env) false := by
      unfold searchEffectiveConfig
      by_cases h : env = some ("1") <;> simp [h, setExpand, setSemanticOnly]
    have hso : (setExpand (searchEffectiveConfig config env) false).semantic_only =
        (searchEffectiveConfig config env).semantic_only := rfl
    have hk : (searchEffectiveConfig config env).top_k =
        (setExpand (searchEffectiveConfig config env) false).top_k := rfl
    have ht : (searchEffectiveConfig config env).threshold =
        (setExpand (searchEffectiveConfig config env) false).threshold := rfl
    simp only [search, heff, hq, hso]
    by_cases hs : (searchEffectiveConfig config env).semantic_only = true
    · simp only [hs, if_true]
      by_cases hempty : db.load_all_chunks = []
      · simp [hempty]
      · simp only [hempty, if_neg]
        exact semantic_only_search_config_congr sqrtFn _ qe _ _ hk ht
    · simp only [Bool.not_eq_true] at hs
      simp only [hs, Bool.false_eq_true, if_false]
      exact hybrid_search_config_congr sqrtFn db qe _ _ _ hk ht

/-- Witness for C8 at a concrete failed expansion. -/
theorem expansion_soft_failure_witness :
    (expand_query (Except.error ("x") : Except String String)).length ≤ 2 ∧
    searchQueries ("q") true (Except.error ("x")) = [("q")] :=
  ⟨(expansion_soft_failure (Except.error ("x")) ("q") ("x") none id db0 [1] cfg0).1,
    (expansion_soft_failure (Except.error ("x")) ("q") ("x") none id db0 [1] cfg0).2.1⟩

/-! ## Claim C5: FTS5 query sanitization -/

theorem sanitizeTokens_shape (ts : List (List Char)) :
    (ts.map sanitizeToken).filter (fun t => t ≠ []) =
      ((ts.map (fun t => t.filter (fun c => c ≠ '"'))).filter (fun t => t ≠ [])).map
        (fun t => '"' :: (t ++ ['"'])) := by
  induction ts with
  | nil => rfl
  | cons t ts ih =>
    by_cases hc : t.filter (fun c => c ≠ '"') = []
    · have h1 : sanitizeToken t = [] := by
        simp only [sanitizeToken]
        rw [if_pos hc]
      simp only [List.map_cons, List.filter_cons, h1, hc]
      simpa using ih
    · have h1 : sanitizeToken t = '"' :: (t.filter (fun c => c ≠ '"') ++ ['"']) := by
        simp only [sanitizeToken]
        rw [if_neg hc]
      simp only [List.map_cons, List.filter_cons, h1]
      rw [if_pos (by simp), if_pos (by simpa using hc)]
      simp only [List.map_cons]
      exact congrArg _ ih

theorem sanitizeTokens_eq (q : List Char) :
    sanitizeTokens q =
      (((splitWhitespace q).map (fun t => t.filter (fun c => c ≠ '"'))).filter
        (fun t => t ≠ [])).map (fun t => '"' :: (t ++ ['"'])) := by
  unfold sanitizeTokens
  exact sanitizeTokens_shape _

/-- Claim C5: every whitespace-delimited token of the query is independently
wrapped in double quotes with embedded double quotes removed (tokens reduced
to nothing are dropped); every emitted token is a well-formed FTS5 phrase
(`goodPhrase`), so operator text, unbalanced quotes and grouping characters
cannot reach the index as syntax; and when the sanitized query is empty,
`bm25_search` returns the empty list without consulting the index. -/
theorem sanitize_fts_query_safe (q : String) (db : Database) (limit : Nat) :
    sanitizeTokens q.data =
      (((splitWhitespace q.data).map (fun t => t.filter (fun c => c ≠ '"'))).filter
        (fun t => t ≠ [])).map (fun t => '"' :: (t ++ ['"'])) ∧
    (∀ t ∈ sanitizeTokens q.data, goodPhrase t) ∧
    (sanitize_fts_query q = "" → db.bm25_search q limit = []) := by
  refine ⟨sanitizeTokens_eq _, ?_, ?_⟩
  · intro t ht
    rw [sanitizeTokens_eq] at ht
    rcases List.mem_map.mp ht with ⟨body, hbody, rfl⟩
    rcases List.mem_filter.mp hbody with ⟨hmem, hne⟩
    rcases List.mem_map.mp hmem with ⟨t₀, _, rfl⟩
    refine ⟨t₀.filter (fun c => c ≠ '"'), by simpa using hne, ?_, rfl⟩
    intro hq
    have := (List.mem_filter.mp hq).2
    simp at this
  · intro h
    simp [Database.bm25_search, h]

/-- Witness for C5: a query that sanitizes to nothing short-circuits the
index. -/
theorem sanitize_fts_query_safe_witness :
    Database.bm25_search db0 ("\"\"") 5 = [] :=
  (sanitize_fts_query_safe ("\"\"") db0 5).2.2 (by with_unfolding_all decide)

/-! ## Claim C6: context-window computation and its fallbacks -/

theorem dwc_neg_indices (tl : Option (List Turn)) (a b : Int) (c : Nat) (t : String)
    (h : a < 0 ∨ b < 0) :
    display_with_context tl a b c t = some (ContextDisplay.warnFallback t) := by
  unfold display_with_context
  rw [if_pos h]

theorem dwc_not_located (a b : Int) (c : Nat) (t : String) (h : ¬(a < 0 ∨ b < 0)) :
    display_with_context none a b c t = some (ContextDisplay.warnFallback t) := by
  unfold display_with_context
  rw [if_neg h]

theorem dwc_out_of_range (turns : List Turn) (a b : Int) (c : Nat) (t : String)
    (h1 : ¬(a < 0 ∨ b < 0)) (h2 : turns = [] ∨ turns.length ≤ a.toNat) :
    display_with_context (some turns) a b c t = some (ContextDisplay.warnFallback t) := by
  unfold display_with_context
  rw [if_neg h1]
  simp only []
  rw [if_pos h2]

theorem dwc_window (turns : List Turn) (a b : Int) (c : Nat) (t : String)
    (h1 : ¬(a < 0 ∨ b < 0)) (h2 : ¬(turns = [] ∨ turns.length ≤ a.toNat))
    (h3 : ¬(min (b.toNat + c) turns.length < a.toNat - c))
    (h4 : (turns.drop (a.toNat - c)).take (min (b.toNat + c) turns.length - (a.toNat - c)) ≠ []) :
    display_with_context (some turns) a b c t =
      some (ContextDisplay.window (a.toNat - c) (min (b.toNat + c) turns.length)
        (((turns.drop (a.toNat - c)).take
            (min (b.toNat + c) turns.length - (a.toNat - c))).enum.map
          (fun p => (p.2, decide (a.toNat ≤ (a.toNat - c) + p.1 ∧ (a.toNat - c) + p.1 < b.toNat))))) := by
  unfold display_with_context
  rw [if_neg h1]
  simp only []
  rw [if_neg h2, if_neg h3, if_neg h4]

/-- Claim C6: for a result with a valid turn range (the data-model invariant
`start < end`), context display never fails: it always produces an outcome.
When the conversation cannot be located or the start of the range is out of
bounds against the loaded turn sequence, the outcome is the stored chunk text
under a visible warning; otherwise the outcome is the display window
`[start - c, min (end + c) len)` (natural subtraction is the `max 0` of the
claim), which is never empty, whose j-th entry is the turn at index
`start - c + j` marked as a match exactly when that index lies in
`[start, end)` and as context otherwise. -/
theorem display_with_context_spec (turnsLoaded : Option (List Turn))
    (turn_start turn_end : Int) (c : Nat) (text : String)
    (hrange : turn_start < turn_end) :
    ∃ d, display_with_context turnsLoaded turn_start turn_end c text = some d ∧
      ((turnsLoaded = none ∨ turn_start < 0) → d = ContextDisplay.warnFallback text) ∧
      (∀ turns, turnsLoaded = some turns → 0 ≤ turn_start →
        ((turns.length ≤ turn_start.toNat → d = ContextDisplay.warnFallback text) ∧
         (turn_start.toNat < turns.length →
           ∃ ws, d = ContextDisplay.window (turn_start.toNat - c)
               (min (turn_end.toNat + c) turns.length) ws ∧
             ws.length = min (turn_end.toNat + c) turns.length - (turn_start.toNat - c) ∧
             0 < ws.length ∧
             ∀ j, j < ws.length →
               ws[j]? = (turns[turn_start.toNat - c + j]?).map (fun t =>
                 (t, decide (turn_start.toNat ≤ turn_start.toNat - c + j ∧
                   turn_start.toNat - c + j < turn_end.toNat)))))) := by
  by_cases hneg : turn_start < 0 ∨ turn_end < 0
  · refine ⟨ContextDisplay.warnFallback text, dwc_neg_indices _ _ _ _ _ hneg,
      fun _ => rfl, ?_⟩
    intro turns hsome hpos
    exact absurd hpos (by omega)
  · have hts : 0 ≤ turn_start := by omega
    have hte : 0 ≤ turn_end := by omega
    cases turnsLoaded with
    | none =>
      refine ⟨ContextDisplay.warnFallback text, dwc_not_located _ _ _ _ hneg,
        fun _ => rfl, ?_⟩
      intro turns hsome
      exact absurd hsome (by simp)
    | some turns =>
      by_cases hoor : turns = [] ∨ turns.length ≤ turn_start.toNat
      · refine ⟨ContextDisplay.warnFallback text, dwc_out_of_range _ _ _ _ _ hneg hoor,
          fun _ => rfl, ?_⟩
        intro turns' hsome hpos
        have hturns : turns' = turns := by
          injection hsome with h
          exact h.symm
        subst hturns
        refine ⟨fun _ => rfl, fun hlt => ?_⟩
        rcases hoor with h | h
        · rw [h] at hlt
          exact absurd hlt (by simp)
        · omega
      · -- in-bounds: the rendered window
        have hAB : turn_start.toNat < turn_end.toNat := by omega
        have hlen : turn_start.toNat < turns.length := by
          rcases not_or.mp hoor with ⟨h1, h2⟩
          omega
        have h3 : ¬(min (turn_end.toNat + c) turns.length < turn_start.toNat - c) := by
          omega
        have hslice_len :
            ((turns.drop (turn_start.toNat - c)).take
              (min (turn_end.toNat + c) turns.length - (turn_start.toNat - c))).length =
              min (turn_end.toNat + c) turns.length - (turn_start.toNat - c) := by
          rw [List.length_take, List.length_drop]
          omega
        have h4 : (turns.drop (turn_start.toNat - c)).take
            (min (turn_end.toNat + c) turns.length - (turn_start.toNat - c)) ≠ [] := by
          intro h
          rw [h] at hslice_len
          simp only [List.length_nil] at hslice_len
          omega
        refine ⟨_, dwc_window turns _ _ c text hneg hoor h3 h4, ?_, ?_⟩
        · rintro (h | h)
          · exact absurd h (by simp)
          · omega
        · intro turns' hsome hpos
          have hturns : turns' = turns := by
            injection hsome with h
            exact h.symm
          subst hturns
          refine ⟨fun h => absurd h (by omega), fun _ => ?_⟩
          refine ⟨_, rfl, ?_, ?_, ?_⟩
          · rw [List.length_map, List.enum_length, hslice_len]
          · rw [List.length_map, List.enum_length, hslice_len]
            omega
          · intro j hj
            rw [List.length_map, List.enum_length, hslice_len] at hj
            rw [List.getElem?_map, List.getElem?_enum, List.getElem?_take, if_pos hj,
              List.getElem?_drop, Option.map_map]
            exact Option.map_congr fun a _ => rfl

/-- Witness for C6 at the specification's own example: context 1 around turn
range `[2, 3)` in a 10-turn conversation displays without failing. -/
theorem display_with_context_spec_witness :
    (display_with_context (some (List.replicate 10 (Turn.mk ("u") ("a")))) 2 3 1
      ("t")).isSome = true := by
  obtain ⟨d, hd, -, -⟩ :=
    display_with_context_spec (some (List.replicate 10 (Turn.mk ("u") ("a")))) 2 3 1
      ("t") (by decide)
  rw [hd]
  rfl

/-! ## Claim C3: replacing a conversation's fragments is atomic -/

theorem runOps_ok_eq (ops : List DbOp) :
    ∀ (pending : StoreState) (failAt : Option Nat) (s' : StoreState),
      runOps pending ops failAt = Except.ok s' → s' = ops.foldl applyOp pending := by
  induction ops with
  | nil =>
    intro pending failAt s' h
    simp only [runOps] at h
    cases h
    rfl
  | cons op rest ih =>
    intro pending failAt s' h
    cases failAt with
    | none =>
      simp only [runOps] at h
      simpa using ih _ _ _ h
    | some n =>
      cases n with
      | zero => simp [runOps] at h
      | succ m =>
        simp only [runOps] at h
        simpa using ih _ _ _ h

theorem foldl_insert_rows (rows : List ChunkRow) : ∀ s : StoreState,
    (rows.map DbOp.insertChunk).foldl applyOp s = ⟨s.chunks ++ rows, s.processed⟩ := by
  induction rows with
  | nil =>
    intro s
    cases s
    simp
  | cons r rows ih =>
    intro s
    simp only [List.map_cons, List.foldl_cons, applyOp]
    rw [ih]
    simp

theorem storeOps_foldl (s : StoreState) (sid fp : String) (fsize fmtime : Int)
    (ids : Nat → String) (chunks : List (TextChunk × List ℚ)) :
    (storeOps sid fp fsize fmtime ids chunks).foldl applyOp s =
      ⟨s.chunks.filter (fun c => c.session_id ≠ sid) ++ insertedRows ids chunks,
        assocInsert sid ⟨fp, fsize, fmtime, Int.ofNat chunks.length⟩ s.processed⟩ := by
  unfold storeOps
  rw [List.foldl_append, List.foldl_cons, List.foldl_nil, List.foldl_cons,
    show applyOp s (DbOp.deleteSession sid) =
      ⟨s.chunks.filter (fun c => c.session_id ≠ sid), s.processed⟩ from rfl,
    show ((List.range chunks.length).zip chunks).map
        (fun p => DbOp.insertChunk (rowOfChunk ids p.1 p.2)) =
      (insertedRows ids chunks).map DbOp.insertChunk from by
        unfold insertedRows
        rw [List.map_map]
        rfl,
    foldl_insert_rows]
  rfl

theorem insertedRows_session {ids : Nat → String} {chunks : List (TextChunk × List ℚ)}
    {sid : String} (hsid : ∀ ch ∈ chunks, ch.1.session_id = sid) :
    ∀ row ∈ insertedRows ids chunks, row.session_id = sid := by
  intro row hrow
  rcases List.mem_map.mp hrow with ⟨p, hp, rfl⟩
  have hmem : p.2 ∈ chunks := (List.of_mem_zip hp).2
  exact hsid _ hmem

/-- Claim C3: `store_chunks` is atomic.  If the transaction fails at any
injected point the observable store is exactly the old state; if it succeeds
the store is exactly the old state with the conversation's fragments replaced
by the new batch and the fingerprint marker upserted.  In particular (third
conjunct), on success the rows stored under the conversation id are exactly
the new batch and every other conversation's rows are untouched — never a mix
of stale and new fragments. -/
theorem store_chunks_atomic (s : StoreState) (sid fp : String) (fsize fmtime : Int)
    (ids : Nat → String) (chunks : List (TextChunk × List ℚ)) (failAt : Option Nat) :
    ((store_chunks s sid fp fsize fmtime ids chunks failAt).2 = false →
      (store_chunks s sid fp fsize fmtime ids chunks failAt).1 = s) ∧
    ((store_chunks s sid fp fsize fmtime ids chunks failAt).2 = true →
      (store_chunks s sid fp fsize fmtime ids chunks failAt).1 =
        ⟨s.chunks.filter (fun c => c.session_id ≠ sid) ++ insertedRows ids chunks,
          assocInsert sid ⟨fp, fsize, fmtime, Int.ofNat chunks.length⟩ s.processed⟩) ∧
    ((∀ ch ∈ chunks, ch.1.session_id = sid) →
      (store_chunks s sid fp fsize fmtime ids chunks failAt).2 = true →
      ((store_chunks s sid fp fsize fmtime ids chunks failAt).1.chunks.filter
          (fun c => c.session_id = sid) = insertedRows ids chunks ∧
        (store_chunks s sid fp fsize fmtime ids chunks failAt).1.chunks.filter
          (fun c => c.session_id ≠ sid) = s.chunks.filter (fun c => c.session_id ≠ sid))) := by
  unfold store_chunks
  cases hr : runOps s (storeOps sid fp fsize fmtime ids chunks) failAt with
  | error e =>
    refine ⟨fun _ => rfl, fun h => absurd h (by simp), fun _ h => absurd h (by simp)⟩
  | ok s' =>
    have hshape : s' =
        ⟨s.chunks.filter (fun c => c.session_id ≠ sid) ++ insertedRows ids chunks,
          assocInsert sid ⟨fp, fsize, fmtime, Int.ofNat chunks.length⟩ s.processed⟩ := by
      rw [runOps_ok_eq _ _ _ _ hr, storeOps_foldl]
    refine ⟨fun h => absurd h (by simp), fun _ => hshape, fun hsid _ => ?_⟩
    rw [hshape]
    constructor
    · show (List.filter _ (s.chunks.filter (fun c => c.session_id ≠ sid) ++
        insertedRows ids chunks)) = insertedRows ids chunks
      rw [List.filter_append]
      have h1 : (s.chunks.filter (fun c => c.session_id ≠ sid)).filter
          (fun c => c.session_id = sid) = [] := by
        rw [List.filter_eq_nil_iff]
        intro a ha
        have := (List.mem_filter.mp ha).2
        simp only [ne_eq, decide_not, Bool.not_eq_true', decide_eq_false_iff_not] at this
        simp [this]
      have h2 : (insertedRows ids chunks).filter (fun c => c.session_id = sid) =
          insertedRows ids chunks := by
        rw [List.filter_eq_self]
        intro a ha
        simp [insertedRows_session hsid a ha]
      rw [h1, h2, List.nil_append]
    · show (List.filter _ (s.chunks.filter (fun c => c.session_id ≠ sid) ++
        insertedRows ids chunks)) = s.chunks.filter (fun c => c.session_id ≠ sid)
      rw [List.filter_append]
      have h1 : (s.chunks.filter (fun c => c.session_id ≠ sid)).filter
          (fun c => c.session_id ≠ sid) = s.chunks.filter (fun c => c.session_id ≠ sid) := by
        rw [List.filter_eq_self]
        intro a ha
        exact (List.mem_filter.mp ha).2
      have h2 : (insertedRows ids chunks).filter (fun c => c.session_id ≠ sid) = [] := by
        rw [List.filter_eq_nil_iff]
        intro a ha
        simp [insertedRows_session hsid a ha]
      rw [h1, h2, List.append_nil]

/-- Witness for C3: a concrete successful replacement stores exactly the new
batch for the session, and a concrete failure mid-batch leaves the store
unchanged. -/
theorem store_chunks_atomic_witness :
    (store_chunks st0 ("s") ("f") 1 2 ids0 chunks0 none).1.chunks.filter
        (fun c => c.session_id = ("s")) = insertedRows ids0 chunks0 ∧
    (store_chunks st0 ("s") ("f") 1 2 ids0 chunks0 (some 1)).1 = st0 :=
  ⟨((store_chunks_atomic st0 ("s") ("f") 1 2 ids0 chunks0 none).2.2 (by decide)
      (by with_unfolding_all decide)).1,
    (store_chunks_atomic st0 ("s") ("f") 1 2 ids0 chunks0 (some 1)).1
      (by with_unfolding_all decide)⟩

/-! ## Claim C1: top-k bound and the similarity reported per result -/

theorem takeResults_length_le : ∀ (l : List (ℚ × Int)) (byR : List (Int × StoredChunk))
    (semS : List (Int × ℚ)), (takeResults l byR semS).length ≤ l.length := by
  intro l
  induction l with
  | nil => intro byR semS; simp [takeResults]
  | cons p rest ih =>
    intro byR semS
    cases h : assocGet p.2 byR with
    | none =>
      simp only [takeResults, h]
      exact le_trans (ih _ _) (by simp)
    | some chunk =>
      simp only [takeResults, h, List.length_cons]
      exact Nat.succ_le_succ (ih _ _)

theorem takeResults_sim : ∀ (l : List (ℚ × Int)) (byR : List (Int × StoredChunk))
    (semS : List (Int × ℚ)) (r : SearchResult), r ∈ takeResults l byR semS →
    r.similarity = 0 ∨ ∃ k, assocGet k semS = some r.similarity := by
  intro l
  induction l with
  | nil => intro byR semS r hr; simp [takeResults] at hr
  | cons p rest ih =>
    intro byR semS r hr
    cases h : assocGet p.2 byR with
    | none =>
      rw [takeResults, h] at hr
      exact ih _ _ _ hr
    | some chunk =>
      rw [takeResults, h] at hr
      rcases List.mem_cons.mp hr with rfl | hr'
      · cases hs : assocGet p.2 semS with
        | none => simp [hs]
        | some v =>
          right
          exact ⟨p.2, by simp [hs]⟩
      · exact ih _ _ _ hr'

theorem simsOf_get {l : List (Int × ℚ)} {k : Int} {v : ℚ}
    (h : assocGet k (simsOf l) = some v) : (k, v) ∈ l := by
  have h' := assocGet_foldl_insert (fun p : Int × ℚ => p) l [] k v h
  rcases h' with ⟨b, hb, hfb⟩ | hget
  · rw [← hfb]
    exact hb
  · simp [assocGet] at hget

theorem semanticRanking_threshold {sqrtFn : ℚ → ℚ} {qe : List ℚ}
    {candidates : List StoredChunk} {threshold : ℚ} {k : Int} {v : ℚ}
    (h : (k, v) ∈ semanticRanking sqrtFn qe candidates threshold) : threshold ≤ v := by
  unfold semanticRanking at h
  have h1 := (List.perm_insertionSort simGe _).mem_iff.mp h
  have h2 := (List.mem_filter.mp h1).2
  simpa using h2

theorem semantic_only_search_spec (sqrtFn : ℚ → ℚ) (chunks : List StoredChunk)
    (qe : List ℚ) (config : RecallConfig) :
    (semantic_only_search sqrtFn chunks qe config).length ≤ config.top_k ∧
    ∀ r ∈ semantic_only_search sqrtFn chunks qe config,
      config.threshold ≤ r.similarity := by
  constructor
  · exact List.length_take_le _ _
  · intro r hr
    unfold semantic_only_search at hr
    have h1 := List.mem_of_mem_take hr
    have h2 := (List.perm_insertionSort resultSimGe _).mem_iff.mp h1
    have h3 := (List.mem_filter.mp h2).2
    simpa using h3

theorem hybrid_search_spec (sqrtFn : ℚ → ℚ) (db : Database) (qe : List ℚ)
    (queries : List String) (config : RecallConfig) :
    (hybrid_search_expanded sqrtFn db qe queries config).length ≤ config.top_k ∧
    ∀ r ∈ hybrid_search_expanded sqrtFn db qe queries config,
      config.threshold ≤ r.similarity ∨ r.similarity = 0 := by
  unfold hybrid_search_expanded
  by_cases hc : hybridCandidates db (lexicalRanking db queries config.top_k) = []
  · simp [hc]
  · rw [if_neg hc]
    constructor
    · exact le_trans (takeResults_length_le _ _ _) (List.length_take_le _ _)
    · intro r hr
      rcases takeResults_sim _ _ _ _ hr with h0 | ⟨k, hk⟩
      · exact Or.inr h0
      · exact Or.inl (semanticRanking_threshold (simsOf_get hk))

/-- Claim C1: for every store, query and configuration (and any environment,
expansion outcome and square-root function), `search` returns at most `top_k`
results, and every returned result's reported similarity either passed the
semantic threshold or is exactly 0 (the lexical-only fallback value). -/
theorem search_topk_threshold (env : Option String) (sqrtFn : ℚ → ℚ) (db : Database)
    (qe : List ℚ) (chat : Except String String) (q : String) (config : RecallConfig) :
    (search env sqrtFn db qe chat q config).length ≤ config.top_k ∧
    ∀ r ∈ search env sqrtFn db qe chat q config,
      config.threshold ≤ r.similarity ∨ r.similarity = 0 := by
  have hk : (searchEffectiveConfig config env).top_k = config.top_k := by
    unfold searchEffectiveConfig
    split <;> rfl
  have ht : (searchEffectiveConfig config env).threshold = config.threshold := by
    unfold searchEffectiveConfig
    split <;> rfl
  simp only [search]
  by_cases hs : (searchEffectiveConfig config env).semantic_only = true
  · simp only [hs, if_true]
    by_cases he : db.load_all_chunks = []
    · simp [he]
    · simp only [he, if_neg, if_false]
      have hspec := semantic_only_search_spec sqrtFn db.load_all_chunks qe
        (searchEffectiveConfig config env)
      rw [hk, ht] at hspec
      exact ⟨hspec.1, fun r hr => Or.inl (hspec.2 r hr)⟩
  · simp only [Bool.not_eq_true] at hs
    simp only [hs, Bool.false_eq_true, if_false]
    have hspec := hybrid_search_spec sqrtFn db qe
      (searchQueries q (searchEffectiveConfig config env).expand chat)
      (searchEffectiveConfig config env)
    rw [hk, ht] at hspec
    exact hspec

/-- Witness for C1 at a concrete store and configuration. -/
theorem search_topk_threshold_witness :
    (search none id db0 [1] (Except.error ("e")) ("hi") cfg0).length ≤ cfg0.top_k :=
  (search_topk_threshold none id db0 [1] (Except.error ("e")) ("hi") cfg0).1

/-! ## Claim C2: reciprocal rank fusion — lemmas on rank maps and keys -/

theorem assocGet_assocRemove {κ α : Type} [DecidableEq κ] (k k' : κ) (m : List (κ × α)) :
    assocGet k (assocRemove k' m) = if k = k' then none else assocGet k m := by
  induction m with
  | nil => by_cases h : k = k' <;> simp [assocRemove, assocGet, h]
  | cons p rest ih =>
    by_cases h1 : p.1 = k'
    · simp only [assocRemove, h1, if_true]
      rw [ih]
      by_cases h2 : k = k'
      · rw [if_pos h2, if_pos h2]
      · rw [if_neg h2, if_neg h2, assocGet]
        rw [if_neg (by rw [h1]; exact fun he => h2 he.symm)]
    · simp only [assocRemove, h1, if_false]
      by_cases h2 : p.1 = k
      · have hk : ¬ k = k' := fun he => h1 (h2.trans he)
        simp [assocGet, h2, hk]
      · simp only [assocGet, h2, if_false]
        exact ih

theorem ranksOfAux_get_not_mem : ∀ (l : List (Int × ℚ)) (i : Nat) (m : List (Int × Nat))
    (r : Int), r ∉ l.map Prod.fst → assocGet r (ranksOfAux i l m) = assocGet r m := by
  intro l
  induction l with
  | nil => intro i m r _; rfl
  | cons p rest ih =>
    intro i m r hr
    simp only [List.map_cons, List.mem_cons, not_or] at hr
    rw [ranksOfAux, ih _ _ _ hr.2, assocGet_assocInsert,
      if_neg (fun he => hr.1 he.symm)]

theorem rankFrom_not_mem : ∀ (l : List (Int × ℚ)) (n : Nat) (r : Int),
    r ∉ l.map Prod.fst → rankFrom n r l = 10000 := by
  intro l
  induction l with
  | nil => intro n r _; rfl
  | cons p rest ih =>
    intro n r hr
    simp only [List.map_cons, List.mem_cons, not_or] at hr
    rw [rankFrom, if_neg (fun he => hr.1 he.symm), ih _ _ hr.2]

theorem ranksOfAux_get_mem : ∀ (l : List (Int × ℚ)) (i : Nat) (m : List (Int × Nat))
    (r : Int), (l.map Prod.fst).Nodup → r ∈ l.map Prod.fst →
    ∃ n : Nat, assocGet r (ranksOfAux i l m) = some n ∧ (n : ℚ) = rankFrom (i + 1) r l := by
  intro l
  induction l with
  | nil => intro i m r _ hr; simp at hr
  | cons p rest ih =>
    intro i m r hnd hr
    rw [List.map_cons, List.nodup_cons] at hnd
    by_cases hpr : p.1 = r
    · have hnr : r ∉ rest.map Prod.fst := hpr ▸ hnd.1
      refine ⟨i + 1, ?_, ?_⟩
      · rw [ranksOfAux, ranksOfAux_get_not_mem _ _ _ _ hnr, assocGet_assocInsert,
          if_pos hpr]
      · rw [rankFrom, if_pos hpr]
    · have hr' : r ∈ rest.map Prod.fst := by
        rcases List.mem_cons.mp (List.map_cons _ _ _ ▸ hr) with h | h
        · exact absurd h.symm hpr
        · exact h
      rcases ih (i + 1) (assocInsert p.1 (i + 1) m) r hnd.2 hr' with ⟨n, hget, hval⟩
      refine ⟨n, ?_, ?_⟩
      · rw [ranksOfAux]
        exact hget
      · rw [rankFrom, if_neg hpr]
        exact hval

theorem rankOrFallbackOfMap_ranksOf (l : List (Int × ℚ)) (r : Int)
    (hnd : (l.map Prod.fst).Nodup) :
    rankOrFallbackOfMap (ranksOf l) r = specRankOrFallback l r := by
  by_cases hr : r ∈ l.map Prod.fst
  · rcases ranksOfAux_get_mem l 0 [] r hnd hr with ⟨n, hget, hval⟩
    unfold rankOrFallbackOfMap ranksOf
    rw [hget]
    exact hval
  · unfold rankOrFallbackOfMap ranksOf specRankOrFallback
    rw [ranksOfAux_get_not_mem _ _ _ _ hr, rankFrom_not_mem _ _ _ hr]
    rfl

theorem fusedScore_formula (sem lex : List (Int × ℚ)) (r : Int)
    (hs : (sem.map Prod.fst).Nodup) (hl : (lex.map Prod.fst).Nodup) :
    fusedScore (ranksOf sem) (ranksOf lex) r =
      1 / (60 + specRankOrFallback sem r) + 1 / (60 + specRankOrFallback lex r) := by
  unfold fusedScore RRF_K
  rw [rankOrFallbackOfMap_ranksOf _ _ hs, rankOrFallbackOfMap_ranksOf _ _ hl]

theorem assocInsert_keys_mem {κ α : Type} [DecidableEq κ] (k' : κ) (v : α)
    (m : List (κ × α)) (r : κ) :
    r ∈ (assocInsert k' v m).map Prod.fst ↔ (r = k' ∨ r ∈ m.map Prod.fst) := by
  induction m with
  | nil => simp [assocInsert, eq_comm]
  | cons p rest ih =>
    by_cases h : p.1 = k'
    · simp only [assocInsert, h, if_true, List.map_cons, List.mem_cons]
      tauto
    · simp only [assocInsert, h, if_false, List.map_cons, List.mem_cons, ih]
      tauto

theorem ranksOfAux_keys_mem : ∀ (l : List (Int × ℚ)) (i : Nat) (m : List (Int × Nat))
    (r : Int), r ∈ (ranksOfAux i l m).map Prod.fst ↔
      (r ∈ l.map Prod.fst ∨ r ∈ m.map Prod.fst) := by
  intro l
  induction l with
  | nil => intro i m r; simp [ranksOfAux]
  | cons p rest ih =>
    intro i m r
    rw [ranksOfAux, ih, assocInsert_keys_mem]
    simp only [List.map_cons, List.mem_cons]
    tauto

theorem fusedKeys_mem (semR lexR : List (Int × Nat)) (r : Int) :
    r ∈ fusedKeys semR lexR ↔
      (r ∈ semR.map Prod.fst ∨ r ∈ lexR.map Prod.fst) := by
  unfold fusedKeys
  rw [List.mem_dedup, (List.perm_insertionSort _ _).mem_iff, List.mem_append]

theorem fusedList_mem_of_key (semR lexR : List (Int × Nat)) (r : Int)
    (h : r ∈ fusedKeys semR lexR) :
    (fusedScore semR lexR r, r) ∈ fusedList semR lexR := by
  unfold fusedList
  rw [(List.perm_insertionSort _ _).mem_iff]
  exact List.mem_map_of_mem _ h

theorem fusedList_fst_eq (semR lexR : List (Int × Nat)) (p : ℚ × Int)
    (h : p ∈ fusedList semR lexR) : p.1 = fusedScore semR lexR p.2 := by
  unfold fusedList at h
  rw [(List.perm_insertionSort _ _).mem_iff] at h
  rcases List.mem_map.mp h with ⟨r, _, rfl⟩
  rfl

theorem upsertMinRank_keys (acc : List (Int × ℚ)) (p : Int × ℚ) :
    (upsertMinRank acc p).map Prod.fst =
      if p.1 ∈ acc.map Prod.fst then acc.map Prod.fst
      else acc.map Prod.fst ++ [p.1] := by
  induction acc with
  | nil => simp [upsertMinRank]
  | cons q rest ih =>
    by_cases h : q.1 = p.1
    · simp only [upsertMinRank, h, if_true, List.map_cons]
      rw [if_pos (by rw [← h]; exact List.mem_cons_self _ _)]
    · simp only [upsertMinRank, h, if_false, List.map_cons, ih]
      by_cases hm : p.1 ∈ rest.map Prod.fst
      · rw [if_pos hm, if_pos (List.mem_cons_of_mem _ hm)]
      · rw [if_neg hm,
          if_neg (by
            simp only [List.mem_cons, not_or]
            exact ⟨fun he => h he.symm, hm⟩)]
        rfl

theorem upsertMinRank_keys_nodup (acc : List (Int × ℚ)) (p : Int × ℚ)
    (h : (acc.map Prod.fst).Nodup) : ((upsertMinRank acc p).map Prod.fst).Nodup := by
  rw [upsertMinRank_keys]
  by_cases hm : p.1 ∈ acc.map Prod.fst
  · rw [if_pos hm]
    exact h
  · rw [if_neg hm]
    simp [List.nodup_append, h, hm]

theorem foldl_upsertMinRank_nodup : ∀ (rows : List (Int × ℚ)) (acc : List (Int × ℚ)),
    (acc.map Prod.fst).Nodup → ((rows.foldl upsertMinRank acc).map Prod.fst).Nodup := by
  intro rows
  induction rows with
  | nil => intro acc h; exact h
  | cons p rest ih =>
    intro acc h
    rw [List.foldl_cons]
    exact ih _ (upsertMinRank_keys_nodup _ _ h)

theorem mergedBm25_keys_nodup (db : Database) (queries : List String) (pool : Nat) :
    ((mergedBm25 db queries pool).map Prod.fst).Nodup := by
  unfold mergedBm25
  have hgen : ∀ (qs : List String) (acc : List (Int × ℚ)), (acc.map Prod.fst).Nodup →
      ((qs.foldl (fun acc q => (db.bm25_search q pool).foldl upsertMinRank acc) acc).map
        Prod.fst).Nodup := by
    intro qs
    induction qs with
    | nil => intro acc h; exact h
    | cons q rest ih =>
      intro acc h
      rw [List.foldl_cons]
      exact ih _ (foldl_upsertMinRank_nodup _ _ h)
  exact hgen queries [] (by simp)

theorem lexicalRanking_keys_nodup (db : Database) (queries : List String) (top_k : Nat) :
    ((lexicalRanking db queries top_k).map Prod.fst).Nodup := by
  unfold lexicalRanking
  exact ((List.perm_insertionSort rankLe _).map Prod.fst).nodup_iff.mpr
    (mergedBm25_keys_nodup db queries _)

theorem hybridCandidates_rowid_nodup (db : Database) (lexical : List (Int × ℚ))
    (hnd : (db.chunks.map StoredChunk.rowid).Nodup) :
    ((hybridCandidates db lexical).map StoredChunk.rowid).Nodup := by
  unfold hybridCandidates Database.load_all_chunks Database.load_chunks_by_rowids
  by_cases h : lexical.map Prod.fst = []
  · rw [if_pos h]
    exact hnd
  · rw [if_neg h]
    by_cases h2 : lexical.map Prod.fst = []
    · exact absurd h2 h
    · rw [if_neg h2]
      exact hnd.sublist ((List.filter_sublist _).map StoredChunk.rowid)

theorem semanticRanking_keys_nodup (sqrtFn : ℚ → ℚ) (qe : List ℚ)
    (candidates : List StoredChunk) (threshold : ℚ)
    (hnd : (candidates.map StoredChunk.rowid).Nodup) :
    ((semanticRanking sqrtFn qe candidates threshold).map Prod.fst).Nodup := by
  unfold semanticRanking
  apply ((List.perm_insertionSort simGe _).map Prod.fst).nodup_iff.mpr
  apply List.Nodup.sublist ((List.filter_sublist _).map Prod.fst)
  rw [List.map_map]
  exact hnd

theorem byRowidMap_rowid (cs : List StoredChunk) (k : Int) (c : StoredChunk)
    (h : assocGet k (byRowidMap cs) = some c) : c.rowid = k := by
  unfold byRowidMap at h
  have h' := assocGet_foldl_insert (fun c : StoredChunk => (c.rowid, c)) cs [] k c h
  rcases h' with ⟨b, _, hfb⟩ | hget
  · have h1 : b.rowid = k := congrArg Prod.fst hfb
    have h2 : b = c := congrArg Prod.snd hfb
    rw [← h2]
    exact h1
  · simp [assocGet] at hget

theorem takeResults_rowids_sublist : ∀ (l : List (ℚ × Int)) (byR : List (Int × StoredChunk))
    (semS : List (Int × ℚ)),
    (∀ k c, assocGet k byR = some c → c.rowid = k) →
    ((takeResults l byR semS).map (fun r => r.chunk.rowid)).Sublist (l.map Prod.snd) := by
  intro l
  induction l with
  | nil => intro byR semS _; simp [takeResults]
  | cons p rest ih =>
    intro byR semS hinv
    cases h : assocGet p.2 byR with
    | none =>
      simp only [takeResults, h, List.map_cons]
      exact (ih _ _ hinv).cons _
    | some c =>
      simp only [takeResults, h, List.map_cons]
      rw [hinv _ _ h]
      refine List.Sublist.cons₂ _ (ih _ _ ?_)
      intro k c' hk
      rw [assocGet_assocRemove] at hk
      by_cases hkp : k = p.2
      · rw [if_pos hkp] at hk
        exact absurd hk (by simp)
      · rw [if_neg hkp] at hk
        exact hinv _ _ hk

theorem hybrid_output_scores_sorted (sqrtFn : ℚ → ℚ) (db : Database) (qe : List ℚ)
    (queries : List String) (config : RecallConfig) :
    ((hybrid_search_expanded sqrtFn db qe queries config).map
        (fun res => fusedScore
          (ranksOf (semanticRanking sqrtFn qe
            (hybridCandidates db (lexicalRanking db queries config.top_k)) config.threshold))
          (ranksOf (lexicalRanking db queries config.top_k)) res.chunk.rowid)).Sorted
      (fun a b : ℚ => b ≤ a) := by
  unfold hybrid_search_expanded
  by_cases hc : hybridCandidates db (lexicalRanking db queries config.top_k) = []
  · simp [hc]
  · rw [if_neg hc]
    have hinv : ∀ k c, assocGet k (byRowidMap
        (hybridCandidates db (lexicalRanking db queries config.top_k))) = some c →
        c.rowid = k := byRowidMap_rowid _
    have hsub0 := takeResults_rowids_sublist
      ((fusedList
        (ranksOf (semanticRanking sqrtFn qe
          (hybridCandidates db (lexicalRanking db queries config.top_k)) config.threshold))
        (ranksOf (lexicalRanking db queries config.top_k))).take config.top_k)
      (byRowidMap (hybridCandidates db (lexicalRanking db queries config.top_k)))
      (simsOf (semanticRanking sqrtFn qe
        (hybridCandidates db (lexicalRanking db queries config.top_k)) config.threshold))
      hinv
    have hsub1 := hsub0.map (fusedScore
      (ranksOf (semanticRanking sqrtFn qe
        (hybridCandidates db (lexicalRanking db queries config.top_k)) config.threshold))
      (ranksOf (lexicalRanking db queries config.top_k)))
    rw [List.map_map, List.map_map] at hsub1
    have h2 : ((fusedList
        (ranksOf (semanticRanking sqrtFn qe
          (hybridCandidates db (lexicalRanking db queries config.top_k)) config.threshold))
        (ranksOf (lexicalRanking db queries config.top_k))).take config.top_k).map
          ((fusedScore
            (ranksOf (semanticRanking sqrtFn qe
              (hybridCandidates db (lexicalRanking db queries config.top_k)) config.threshold))
            (ranksOf (lexicalRanking db queries config.top_k))) ∘ Prod.snd) =
        ((fusedList
          (ranksOf (semanticRanking sqrtFn qe
            (hybridCandidates db (lexicalRanking db queries config.top_k)) config.threshold))
          (ranksOf (lexicalRanking db queries config.top_k))).take config.top_k).map
            Prod.fst := by
      apply List.map_congr_left
      intro p hp
      have hmem := List.mem_of_mem_take hp
      exact (fusedList_fst_eq _ _ p hmem).symm
    rw [h2] at hsub1
    have hsorted : ((fusedList
        (ranksOf (semanticRanking sqrtFn qe
          (hybridCandidates db (lexicalRanking db queries config.top_k)) config.threshold))
        (ranksOf (lexicalRanking db queries config.top_k))).map Prod.fst).Pairwise
          (fun a b : ℚ => b ≤ a) :=
      List.pairwise_map.mpr (List.sorted_insertionSort scoreGe _)
    have htake : (((fusedList
        (ranksOf (semanticRanking sqrtFn qe
          (hybridCandidates db (lexicalRanking db queries config.top_k)) config.threshold))
        (ranksOf (lexicalRanking db queries config.top_k))).take config.top_k).map
          Prod.fst).Pairwise (fun a b : ℚ => b ≤ a) := by
      rw [List.map_take]
      exact hsorted.sublist (List.take_sublist _ _)
    exact htake.sublist hsub1

/-- Claim C2: for every candidate key appearing in the semantic or lexical
ranking, the fused list carries the pair (score, key) with
score = 1/(60 + semantic_rank) + 1/(60 + lexical_rank), where the rank is
the 1-based position in the respective ranking and 10000 when the key is
absent from it (the key is fused, not excluded); and the results returned by
hybrid search are ordered by descending fused score.  The corpus rowids are
assumed distinct, as SQLite guarantees for a table's rowids. -/
theorem rrf_fusion_spec (sqrtFn : ℚ → ℚ) (db : Database) (qe : List ℚ)
    (queries : List String) (config : RecallConfig)
    (hnd : (db.chunks.map StoredChunk.rowid).Nodup) :
    ∀ lexical semantic, lexical = lexicalRanking db queries config.top_k →
      semantic = semanticRanking sqrtFn qe (hybridCandidates db lexical) config.threshold →
      (∀ r : Int, (r ∈ semantic.map Prod.fst ∨ r ∈ lexical.map Prod.fst) →
        ((fusedScore (ranksOf semantic) (ranksOf lexical) r, r) ∈
            fusedList (ranksOf semantic) (ranksOf lexical) ∧
          fusedScore (ranksOf semantic) (ranksOf lexical) r =
            1 / (60 + specRankOrFallback semantic r) +
              1 / (60 + specRankOrFallback lexical r))) ∧
      ((hybrid_search_expanded sqrtFn db qe queries config).map
          (fun res => fusedScore (ranksOf semantic) (ranksOf lexical)
            res.chunk.rowid)).Sorted (fun a b : ℚ => b ≤ a) := by
  intro lexical semantic hL hS
  subst hL
  subst hS
  constructor
  · intro r hr
    have hLnd := lexicalRanking_keys_nodup db queries config.top_k
    have hSnd := semanticRanking_keys_nodup sqrtFn qe
      (hybridCandidates db (lexicalRanking db queries config.top_k)) config.threshold
      (hybridCandidates_rowid_nodup db (lexicalRanking db queries config.top_k) hnd)
    have hk : r ∈ fusedKeys
        (ranksOf (semanticRanking sqrtFn qe
          (hybridCandidates db (lexicalRanking db queries config.top_k)) config.threshold))
        (ranksOf (lexicalRanking db queries config.top_k)) := by
      rw [fusedKeys_mem]
      rcases hr with h | h
      · left
        unfold ranksOf
        rw [ranksOfAux_keys_mem]
        exact Or.inl h
      · right
        unfold ranksOf
        rw [ranksOfAux_keys_mem]
        exact Or.inl h
    exact ⟨fusedList_mem_of_key _ _ _ hk, fusedScore_formula _ _ r hSnd hLnd⟩
  · exact hybrid_output_scores_sorted sqrtFn db qe queries config

/-- Witness for C2 at the concrete one-chunk store: the single lexical key is
fused with the claimed score. -/
theorem rrf_fusion_spec_witness :
    (fusedScore (ranksOf sem1) (ranksOf lex1) 1, 1) ∈
        fusedList (ranksOf sem1) (ranksOf lex1) ∧
      fusedScore (ranksOf sem1) (ranksOf lex1) 1 =
        1 / (60 + specRankOrFallback sem1 1) + 1 / (60 + specRankOrFallback lex1 1) :=
  (rrf_fusion_spec id db0 [1] [("hi")] cfg0 (by decide) lex1 sem1 rfl rfl).1 1
    (Or.inr (by with_unfolding_all decide))
